import Mathlib

/-!
Verification of the EM engine in `iemgmm.py` (pygmmis).

The shallow embedding works over the real numbers `ℝ` (idealized arithmetic in
place of IEEE doubles).  NumPy arrays become functions out of `Fin _`; in-place
mutation becomes explicit state passing; the in-place loops of the source become
`List.foldl` over the loop index; the random number generator is abstracted as
oracle streams; unbounded recursion and the unbounded `while` loop of `run_EM`
become fuel-indexed functions returning `Option`.
-/

namespace Iemgmm

noncomputable section

open scoped BigOperators

/-! ## `np.finfo('d')`: the IEEE double-precision range constants used by
`logsumLogL`.  `tiny` is the smallest positive normal double, `max` the largest
finite double. -/

/-- Source: `np.finfo('d').tiny = 2^(-1022)`. -/
def tinyF : ℝ := (2 : ℝ) ^ (-1022 : ℤ)

/-- Source: `np.finfo('d').max = (2 - 2^(-52)) * 2^1023`. -/
def maxF : ℝ := (2 - (2 : ℝ) ^ (-52 : ℤ)) * (2 : ℝ) ^ (1023 : ℤ)

/-! ## `logsumLogL`

`logsumLogL(ll)` receives a 2-d array and reduces along axis 0: for each column
`n` it computes `log(sum_k exp(ll[k,n]))` after shifting by a per-column
constant `c`.  We embed a matrix with first axis `A` and second axis `B` as
`Fin A → Fin B → ℝ`. -/

/-- Source: `ll.min(axis=0)` at column `n` (junk value `0` for an empty axis, which
NumPy would reject). -/
def colMin {A B : ℕ} (ll : Fin A → Fin B → ℝ) (n : Fin B) : ℝ :=
  if h : 0 < A then
    haveI : Nonempty (Fin A) := ⟨⟨0, h⟩⟩
    Finset.univ.inf' Finset.univ_nonempty (fun k => ll k n)
  else 0

/-- Source: `ll.max(axis=0)` at column `n`. -/
def colMax {A B : ℕ} (ll : Fin A → Fin B → ℝ) (n : Fin B) : ℝ :=
  if h : 0 < A then
    haveI : Nonempty (Fin A) := ⟨⟨0, h⟩⟩
    Finset.univ.sup' Finset.univ_nonempty (fun k => ll k n)
  else 0

/-- Source: `underflow = np.log(floatinfo.tiny) - ll.min(axis=0)`. -/
def underflowShift {A B : ℕ} (ll : Fin A → Fin B → ℝ) (n : Fin B) : ℝ :=
  Real.log tinyF - colMin ll n

/-- Source: `overflow = np.log(floatinfo.max) - ll.max(axis=0) - np.log(K)` where `K`
is `ll.shape[0]`. -/
def overflowShift {A B : ℕ} (ll : Fin A → Fin B → ℝ) (n : Fin B) : ℝ :=
  Real.log maxF - colMax ll n - Real.log (A : ℝ)

/-- Source: `c = np.where(underflow < overflow, underflow, overflow)`. -/
def shiftC {A B : ℕ} (ll : Fin A → Fin B → ℝ) (n : Fin B) : ℝ :=
  if underflowShift ll n < overflowShift ll n then underflowShift ll n
  else overflowShift ll n

/-- Source: `logsumLogL(ll) = np.log(np.exp(ll + c).sum(axis=0)) - c`. -/
def logsumLogL {A B : ℕ} (ll : Fin A → Fin B → ℝ) (n : Fin B) : ℝ :=
  Real.log (∑ k, Real.exp (ll k n + shiftC ll n)) - shiftC ll n

/-- In exact arithmetic the shift cancels: `logsumLogL` is the plain
log-sum-exp along axis 0 (for a nonempty axis). -/
theorem logsumLogL_eq {A B : ℕ} (hA : 0 < A) (ll : Fin A → Fin B → ℝ) (n : Fin B) :
    logsumLogL ll n = Real.log (∑ k, Real.exp (ll k n)) := by
  haveI : Nonempty (Fin A) := ⟨⟨0, hA⟩⟩
  have hpos : 0 < ∑ k, Real.exp (ll k n) :=
    Finset.sum_pos (fun k _ => Real.exp_pos _) Finset.univ_nonempty
  have hsum : (∑ k, Real.exp (ll k n + shiftC ll n))
      = (∑ k, Real.exp (ll k n)) * Real.exp (shiftC ll n) := by
    rw [Finset.sum_mul]
    exact Finset.sum_congr rfl fun k _ => (Real.exp_add _ _)
  rw [logsumLogL, hsum, Real.log_mul (ne_of_gt hpos) (Real.exp_ne_zero _),
    Real.log_exp, add_sub_cancel_right]

/-! ## `draw` (Sampler)

Randomness is abstracted as two oracle streams consumed by position:
`ind t` models `np.random.choice(K, p=amp)` for the `t`-th index, and
`normal m c t` models the `t`-th draw of `np.random.multivariate_normal(m, c)`.
The in-place renormalization `amp /= amp.sum()` is modelled by also returning
the final contents of `amp`.  The unbounded recursion of the source gets a
fuel parameter; `none` means the fuel ran out before the recursion finished. -/

/-- The pre-selection sampling phase of `draw`: `size` component indices are
drawn, then the samples are produced batched per component when `size > K`
and one at a time otherwise.  Both branches fill the `samples` array with
exactly `size` rows. -/
def batchDraw {K D : ℕ} (ind : ℕ → Fin K)
    (normal : (Fin D → ℝ) → Matrix (Fin D) (Fin D) ℝ → ℕ → (Fin D → ℝ))
    (mean : Fin K → Fin D → ℝ) (covar : Fin K → Matrix (Fin D) (Fin D) ℝ)
    (pos size : ℕ) : List (Fin D → ℝ) :=
  let inds : List (Fin K) := (List.range size).map fun t => ind (pos + t)
  if K < size then
    ((List.finRange K).filter fun c => 0 < inds.count c).flatMap fun c =>
      (List.range (inds.count c)).map fun t => normal (mean c) (covar c) (pos + t)
  else
    (List.range size).map fun t =>
      normal (mean (ind (pos + t))) (covar (ind (pos + t))) (pos + t)

/-- The boolean mask entry for one sample: `sel_callback(samples)`, inverted
when `invert_callback` is set. -/
def keepFn {D : ℕ} (f : (Fin D → ℝ) → Bool) (invert : Bool) (s : Fin D → ℝ) : Bool :=
  if invert then !(f s) else f s

/-- Source: `size_in = sel_.sum()`: the number of samples the (possibly inverted)
selection mask accepts. -/
def sizeIn {D : ℕ} (f : (Fin D → ℝ) → Bool) (invert : Bool)
    (samples : List (Fin D → ℝ)) : ℕ :=
  (samples.filter (keepFn f invert)).length

/-- Source: `amp /= amp.sum()`: the in-place renormalization performed at the top of
every `draw` call. -/
def normAmp {K : ℕ} (amp : Fin K → ℝ) : Fin K → ℝ :=
  fun k => amp k / ∑ k', amp k'

/-- Source: `draw(amp, mean, covar, size, sel_callback, invert_callback)`.  Returns the
final contents of the `amp` buffer together with the samples, or `none` when
the fuel is exhausted before the accept/reject recursion terminates. -/
def draw {K D : ℕ} (ind : ℕ → Fin K)
    (normal : (Fin D → ℝ) → Matrix (Fin D) (Fin D) ℝ → ℕ → (Fin D → ℝ))
    (mean : Fin K → Fin D → ℝ) (covar : Fin K → Matrix (Fin D) (Fin D) ℝ)
    (amp : Fin K → ℝ) (size : ℕ) (sel : Option ((Fin D → ℝ) → Bool))
    (invert : Bool) (pos : ℕ) : (fuel : ℕ) → Option ((Fin K → ℝ) × List (Fin D → ℝ))
  | 0 => none
  | fuel + 1 =>
    let samples := batchDraw ind normal mean covar pos size
    match sel with
    | none => some (normAmp amp, samples)
    | some f =>
      if sizeIn f invert samples = size then some (normAmp amp, samples)
      else
        match draw ind normal mean covar (normAmp amp) (size - sizeIn f invert samples)
            (some f) invert (pos + size) fuel with
        | none => none
        | some r => some (r.1, samples.filter (keepFn f invert) ++ r.2)

/-! Length of the pre-selection batch. -/

theorem sum_count_finRange {K : ℕ} (inds : List (Fin K)) :
    ((List.finRange K).map fun c => inds.count c).sum = inds.length := by
  rw [← Fin.sum_univ_def]
  induction inds with
  | nil => simp
  | cons a t ih =>
    have hcc : ∀ c : Fin K, (a :: t).count c = t.count c + (if c = a then 1 else 0) := by
      intro c
      rw [List.count_cons]
      by_cases h : a = c
      · simp [h]
      · simp [h, show ¬c = a from fun hc => h hc.symm]
    simp only [hcc, Finset.sum_add_distrib, ih, List.length_cons]
    congr 1
    simp

theorem sum_filter_pos_count {K : ℕ} (l : List (Fin K)) (inds : List (Fin K)) :
    ((l.filter fun c => 0 < inds.count c).map fun c => inds.count c).sum
      = (l.map fun c => inds.count c).sum := by
  induction l with
  | nil => rfl
  | cons a t ih =>
    by_cases h : 0 < inds.count a
    · rw [List.filter_cons_of_pos (by simpa using h)]
      simp only [List.map_cons, List.sum_cons, ih]
    · rw [List.filter_cons_of_neg (by simpa using h), ih]
      simp [Nat.eq_zero_of_not_pos h]

theorem batchDraw_length {K D : ℕ} (ind : ℕ → Fin K)
    (normal : (Fin D → ℝ) → Matrix (Fin D) (Fin D) ℝ → ℕ → (Fin D → ℝ))
    (mean : Fin K → Fin D → ℝ) (covar : Fin K → Matrix (Fin D) (Fin D) ℝ)
    (pos size : ℕ) :
    (batchDraw ind normal mean covar pos size).length = size := by
  unfold batchDraw
  by_cases h : K < size
  · simp only [h, if_true]
    rw [List.length_flatMap]
    have hmap : (List.map
        (List.length ∘ fun c => (List.range ((List.map (fun t => ind (pos + t))
          (List.range size)).count c)).map fun t => normal (mean c) (covar c) (pos + t))
        ((List.finRange K).filter fun c =>
          0 < (List.map (fun t => ind (pos + t)) (List.range size)).count c))
        = ((List.finRange K).filter fun c =>
            0 < (List.map (fun t => ind (pos + t)) (List.range size)).count c).map
          fun c => (List.map (fun t => ind (pos + t)) (List.range size)).count c := by
      refine List.map_congr_left fun c _ => ?_
      simp
    rw [hmap, sum_filter_pos_count, sum_count_finRange]
    simp
  · simp [h]

/-- C5: whenever `draw` returns, it returns exactly `size` samples, and when a
selection predicate is supplied every returned sample satisfies the predicate
(or its inversion when `invert_callback` is set). -/
theorem C5_draw_size_and_selection {K D : ℕ} (ind : ℕ → Fin K)
    (normal : (Fin D → ℝ) → Matrix (Fin D) (Fin D) ℝ → ℕ → (Fin D → ℝ))
    (mean : Fin K → Fin D → ℝ) (covar : Fin K → Matrix (Fin D) (Fin D) ℝ)
    (fuel : ℕ) (amp : Fin K → ℝ) (size : ℕ)
    (sel : Option ((Fin D → ℝ) → Bool)) (invert : Bool) (pos : ℕ)
    (out : (Fin K → ℝ) × List (Fin D → ℝ))
    (h : draw ind normal mean covar amp size sel invert pos fuel = some out) :
    out.2.length = size ∧
      ∀ f, sel = some f → ∀ s ∈ out.2, keepFn f invert s = true := by
  induction fuel generalizing amp size pos out with
  | zero => exact absurd h (by simp [draw])
  | succ n ih =>
    cases sel with
    | none =>
      simp only [draw] at h
      obtain rfl : (normAmp amp, batchDraw ind normal mean covar pos size) = out :=
        Option.some_inj.mp h
      refine ⟨batchDraw_length ind normal mean covar pos size, ?_⟩
      intro f hf
      exact absurd hf (by simp)
    | some f =>
      simp only [draw] at h
      set samples := batchDraw ind normal mean covar pos size with hsamples
      have hlen : samples.length = size := batchDraw_length ind normal mean covar pos size
      by_cases hs : sizeIn f invert samples = size
      · rw [if_pos hs] at h
        obtain rfl : (normAmp amp, samples) = out := Option.some_inj.mp h
        refine ⟨hlen, ?_⟩
        intro f2 hf2 s hsmem
        obtain rfl : f = f2 := Option.some_inj.mp hf2
        have hall : ∀ a ∈ samples, keepFn f invert a = true := by
          refine List.filter_length_eq_length.mp ?_
          rw [← sizeIn, hs, hlen]
        exact hall s hsmem
      · rw [if_neg hs] at h
        rcases hrec : draw ind normal mean covar (normAmp amp)
            (size - sizeIn f invert samples) (some f) invert (pos + size) n with _ | r
        · rw [hrec] at h
          exact absurd h (by simp)
        · rw [hrec] at h
          obtain rfl : (r.1, samples.filter (keepFn f invert) ++ r.2) = out :=
            Option.some_inj.mp h
          obtain ⟨ihlen, ihsel⟩ := ih (normAmp amp) (size - sizeIn f invert samples)
            (pos + size) r hrec
          have hin_le : sizeIn f invert samples ≤ size := by
            rw [← hlen]
            exact List.length_filter_le _ _
          constructor
          · have hflen : (samples.filter (keepFn f invert)).length
                = sizeIn f invert samples := rfl
            simp only [List.length_append, hflen, ihlen]
            omega
          · intro f2 hf2 s hsmem
            obtain rfl : f = f2 := Option.some_inj.mp hf2
            rcases List.mem_append.mp hsmem with hmem | hmem
            · exact List.of_mem_filter hmem
            · exact ihsel f rfl s hmem

/-! Concrete oracle streams and mixture parameters used to exercise `draw` on
closed inputs. -/

def oneInd : ℕ → Fin 1 := fun _ => 0

def oneNormal : (Fin 1 → ℝ) → Matrix (Fin 1) (Fin 1) ℝ → ℕ → (Fin 1 → ℝ) :=
  fun _ _ _ _ => 0

def oneMean : Fin 1 → Fin 1 → ℝ := fun _ _ => 0

def oneCovar : Fin 1 → Matrix (Fin 1) (Fin 1) ℝ := fun _ => 1

def oneAmp : Fin 1 → ℝ := fun _ => 1

def twoInd : ℕ → Fin 2 := fun _ => 0

def twoMean : Fin 2 → Fin 1 → ℝ := fun _ _ => 0

def twoCovar : Fin 2 → Matrix (Fin 1) (Fin 1) ℝ := fun _ => 1

def twoAmp : Fin 2 → ℝ := fun _ => 1

/-- Witness for C5 at a concrete input: a call without selection predicate
returns, and returns exactly one sample. -/
theorem C5_witness :
    draw oneInd oneNormal oneMean oneCovar oneAmp 1 none false 0 1
        = some (normAmp oneAmp, batchDraw oneInd oneNormal oneMean oneCovar 0 1) ∧
      (batchDraw oneInd oneNormal oneMean oneCovar 0 1).length = 1 :=
  ⟨rfl,
    (C5_draw_size_and_selection oneInd oneNormal oneMean oneCovar 1 oneAmp 1 none false 0
      (normAmp oneAmp, batchDraw oneInd oneNormal oneMean oneCovar 0 1) rfl).1⟩

/-- Counterexample for C6: `draw` divides the caller's `amp` buffer by its sum
in place.  With `amp = (1, 1)` the call returns with the buffer holding
`(1/2, 1/2)`, not the original values. -/
theorem C6_cex :
    draw twoInd oneNormal twoMean twoCovar twoAmp 1 none false 0 1
        = some (normAmp twoAmp, batchDraw twoInd oneNormal twoMean twoCovar 0 1) ∧
      normAmp twoAmp 0 = 1 / 2 ∧ twoAmp 0 = 1 ∧ normAmp twoAmp 0 ≠ twoAmp 0 := by
  refine ⟨rfl, ?_, rfl, ?_⟩
  · show twoAmp 0 / (∑ k' : Fin 2, twoAmp k') = 1 / 2
    rw [Fin.sum_univ_two]
    norm_num [twoAmp]
  · show twoAmp 0 / (∑ k' : Fin 2, twoAmp k') ≠ twoAmp 0
    rw [Fin.sum_univ_two]
    norm_num [twoAmp]

/-- C6 amended: the only parameter mutation `draw` performs is the in-place
renormalization `amp := amp / sum(amp)`; whenever the call returns and the
input weights have nonzero sum, the final contents of the `amp` buffer are
exactly the normalized input weights (`mean` and `covar` are never written). -/
theorem C6_amended_amp_normalized {K D : ℕ} (ind : ℕ → Fin K)
    (normal : (Fin D → ℝ) → Matrix (Fin D) (Fin D) ℝ → ℕ → (Fin D → ℝ))
    (mean : Fin K → Fin D → ℝ) (covar : Fin K → Matrix (Fin D) (Fin D) ℝ)
    (fuel : ℕ) (amp : Fin K → ℝ) (size : ℕ)
    (sel : Option ((Fin D → ℝ) → Bool)) (invert : Bool) (pos : ℕ)
    (out : (Fin K → ℝ) × List (Fin D → ℝ))
    (h : draw ind normal mean covar amp size sel invert pos fuel = some out)
    (hsum : (∑ k, amp k) ≠ 0) :
    out.1 = normAmp amp := by
  induction fuel generalizing amp size pos out with
  | zero => exact absurd h (by simp [draw])
  | succ n ih =>
    have hN1 : (∑ k, normAmp amp k) = 1 := by
      rw [show (fun k => normAmp amp k) = fun k => amp k / ∑ k', amp k' from rfl,
        ← Finset.sum_div, div_self hsum]
    cases sel with
    | none =>
      obtain rfl : (normAmp amp, batchDraw ind normal mean covar pos size) = out :=
        Option.some_inj.mp (by simpa only [draw] using h)
      rfl
    | some f =>
      simp only [draw] at h
      by_cases hs : sizeIn f invert (batchDraw ind normal mean covar pos size) = size
      · rw [if_pos hs] at h
        obtain rfl : (normAmp amp, batchDraw ind normal mean covar pos size) = out :=
          Option.some_inj.mp h
        rfl
      · rw [if_neg hs] at h
        rcases hrec : draw ind normal mean covar (normAmp amp)
            (size - sizeIn f invert (batchDraw ind normal mean covar pos size))
            (some f) invert (pos + size) n with _ | r
        · rw [hrec] at h
          exact absurd h (by simp)
        · rw [hrec] at h
          obtain rfl : (r.1, (batchDraw ind normal mean covar pos size).filter
              (keepFn f invert) ++ r.2) = out := Option.some_inj.mp h
          have hr1 : r.1 = normAmp (normAmp amp) :=
            ih (normAmp amp) _ _ r hrec (by rw [hN1]; exact one_ne_zero)
          have hidem : normAmp (normAmp amp) = normAmp amp := by
            funext k
            show normAmp amp k / (∑ k', normAmp amp k') = normAmp amp k
            rw [hN1, div_one]
          show r.1 = normAmp amp
          rw [hr1, hidem]

/-- Witness for the amended C6 at a concrete input with weight sum 2. -/
theorem C6_witness :
    draw twoInd oneNormal twoMean twoCovar twoAmp 1 none false 0 1
        = some (normAmp twoAmp, batchDraw twoInd oneNormal twoMean twoCovar 0 1) ∧
      (∑ k, twoAmp k) ≠ 0 ∧
      (normAmp twoAmp, batchDraw twoInd oneNormal twoMean twoCovar 0 1).1
        = normAmp twoAmp := by
  have hsum : (∑ k, twoAmp k) ≠ 0 := by
    rw [Fin.sum_univ_two]
    norm_num [twoAmp]
  exact ⟨rfl, hsum, C6_amended_amp_normalized twoInd oneNormal twoMean twoCovar 1 twoAmp 1
    none false 0 _ rfl hsum⟩

/-- Counterexample for C9: a batch from which the selection predicate accepts
nothing leaves the outstanding deficit unchanged — the recursive call requests
`1 - 0 = 1` samples again, and with the everything-rejecting predicate `draw`
never returns (here: still `none` with fuel 5), even though the claim promises
a strict decrease of the deficit on every recursive call. -/
theorem C9_cex :
    sizeIn (fun _ => false) false (batchDraw oneInd oneNormal oneMean oneCovar 0 1) = 0 ∧
      1 - sizeIn (fun _ => false) false (batchDraw oneInd oneNormal oneMean oneCovar 0 1) = 1 ∧
      draw oneInd oneNormal oneMean oneCovar oneAmp 1 (some fun _ => false) false 0 5 = none :=
  ⟨rfl, rfl, rfl⟩

/-- C9 amended: the recursive call requests `size - size_in` samples, which
never exceeds the parent's request; the deficit decreases strictly exactly when
the batch had at least one accepted sample (and the request was positive), so a
batch with no accepted samples keeps the deficit unchanged and the recursion
depth is unbounded in that case. -/
theorem C9_amended_deficit {D : ℕ} (f : (Fin D → ℝ) → Bool) (invert : Bool)
    (samples : List (Fin D → ℝ)) (size : ℕ) :
    size - sizeIn f invert samples ≤ size ∧
      (size - sizeIn f invert samples < size ↔
        0 < sizeIn f invert samples ∧ 0 < size) := by
  constructor
  · exact Nat.sub_le _ _
  · omega

/-! ## `run_EM` (EMDriver) and `I` (Imputer)

The loop body (one E/M pass, possibly with imputation) is abstracted as a
function returning `none` when NumPy would raise `LinAlgError`; the `while`
loop becomes a fuel-indexed function; `initialize` is abstracted as a state
transformer `initF` (it overwrites the parameters with fresh random values). -/

/-- Source: `I(amp, mean, covar, impute, sel_callback)`: the imputation step draws
`impute` samples with the selection predicate inverted. -/
def I {K D : ℕ} (ind : ℕ → Fin K)
    (normal : (Fin D → ℝ) → Matrix (Fin D) (Fin D) ℝ → ℕ → (Fin D → ℝ))
    (mean : Fin K → Fin D → ℝ) (covar : Fin K → Matrix (Fin D) (Fin D) ℝ)
    (amp : Fin K → ℝ) (impute : ℕ) (sel : Option ((Fin D → ℝ) → Bool))
    (pos fuel : ℕ) : Option ((Fin K → ℝ) × List (Fin D → ℝ)) :=
  draw ind normal mean covar amp impute sel true pos fuel

/-- The branch test of one `run_EM` iteration:
`if impute == 0 or iter < 25 or iter % 2 == 0` runs the plain E/M pass,
otherwise the imputation-augmented pass. -/
def runEMbody {σ : Type} (plainStep imputeStep : ℕ → σ → Option σ) (impute : ℕ)
    (iter : ℕ) (s : σ) : Option σ :=
  if impute = 0 ∨ iter < 25 ∨ iter % 2 = 0 then plainStep iter s else imputeStep iter s

/-- The `while iter < 50` loop of `run_EM`: on success the counter advances,
on `LinAlgError` the counter is set to `0`, the parameters are re-initialized,
and then the trailing `iter += 1` of the loop body runs.  Returns the final
counter and state, or `none` if the fuel runs out (unbounded restarts). -/
def runEMSteps {σ : Type} (body : ℕ → σ → Option σ) (initF : σ → σ) :
    (fuel : ℕ) → (iter : ℕ) → σ → Option (ℕ × σ)
  | 0, _, _ => none
  | fuel + 1, iter, s =>
    if iter < 50 then
      match body iter s with
      | some s2 => runEMSteps body initF fuel (iter + 1) s2
      | none => runEMSteps body initF fuel (0 + 1) (initF s)
    else some (iter, s)

/-- Source: `run_EM`: initialize once, then run the iteration loop from counter 0. -/
def runEM {σ : Type} (plainStep imputeStep : ℕ → σ → Option σ) (impute : ℕ)
    (initF : σ → σ) (fuel : ℕ) (s0 : σ) : Option (ℕ × σ) :=
  runEMSteps (runEMbody plainStep imputeStep impute) initF fuel 0 (initF s0)

/-- A loop body over a log of executed iteration numbers: it fails (raises
`LinAlgError`) exactly on the very first execution of iteration 0, and
otherwise appends the iteration number to the log. -/
def logStep : ℕ → List ℕ → Option (List ℕ) :=
  fun iter s => if iter = 0 ∧ s = ([] : List ℕ) then none else some (s ++ [iter])

/-- Counterexample for C4: after the numerical failure at iteration 0, the
driver executes iterations 1 through 49 — iteration 0 is never executed after
the restart and only 49 further iterations run, not a fresh 50-iteration
budget starting at iteration 0. -/
theorem C4_cex :
    runEM logStep logStep 0 id 60 [] = some (50, (List.range 49).map fun t => t + 1) ∧
      0 ∉ (List.range 49).map fun t => t + 1 := by
  constructor
  · decide
  · decide

/-- C4 amended: on a numerical failure the driver re-randomizes the parameters
via the initializer and sets the counter to 0, but the trailing `iter += 1`
then makes the next executed iteration number 1, leaving a budget of 49
further iterations rather than a fresh 50 starting at iteration 0. -/
theorem C4_amended_restart {σ : Type} (body : ℕ → σ → Option σ) (initF : σ → σ)
    (fuel iter : ℕ) (s : σ) (hfail : body iter s = none) (hiter : iter < 50) :
    runEMSteps body initF (fuel + 1) iter s = runEMSteps body initF fuel 1 (initF s) := by
  simp only [runEMSteps, if_pos hiter, hfail]

def noneBody : ℕ → ℕ → Option ℕ := fun _ _ => none

/-- Witness for the amended C4 at a concrete input. -/
theorem C4_witness :
    noneBody 0 0 = none ∧ 0 < 50 ∧
      runEMSteps noneBody id 4 0 0 = runEMSteps noneBody id 3 1 0 :=
  ⟨rfl, by decide, C4_amended_restart noneBody id 3 0 0 rfl (by decide)⟩

/-- C10: with `impute > 0` and `sel_callback = None` the imputation branch is
still selected on iterations with counter at least 25 and odd; the imputer
calls `draw` with the inverted-selection flag set but no predicate, and `draw`
then skips the accept/reject step entirely: it returns the raw batch, and the
invert flag has no effect on the result. -/
theorem C10_impute_without_callback :
    (∀ (σ : Type) (plainStep imputeStep : ℕ → σ → Option σ) (impute iter : ℕ) (s : σ),
        runEMbody plainStep imputeStep impute iter s
          = if 0 < impute ∧ 25 ≤ iter ∧ iter % 2 = 1 then imputeStep iter s
            else plainStep iter s) ∧
    (∀ (K D : ℕ) (ind : ℕ → Fin K)
        (normal : (Fin D → ℝ) → Matrix (Fin D) (Fin D) ℝ → ℕ → (Fin D → ℝ))
        (mean : Fin K → Fin D → ℝ) (covar : Fin K → Matrix (Fin D) (Fin D) ℝ)
        (amp : Fin K → ℝ) (impute : ℕ) (b : Bool) (pos fuel : ℕ),
        draw ind normal mean covar amp impute none b pos fuel
          = draw ind normal mean covar amp impute none true pos fuel) ∧
    (∀ (K D : ℕ) (ind : ℕ → Fin K)
        (normal : (Fin D → ℝ) → Matrix (Fin D) (Fin D) ℝ → ℕ → (Fin D → ℝ))
        (mean : Fin K → Fin D → ℝ) (covar : Fin K → Matrix (Fin D) (Fin D) ℝ)
        (amp : Fin K → ℝ) (impute : ℕ) (pos fuel : ℕ),
        I ind normal mean covar amp impute none pos (fuel + 1)
          = some (normAmp amp, batchDraw ind normal mean covar pos impute)) := by
  refine ⟨?_, ?_, ?_⟩
  · intro σ plainStep imputeStep impute iter s
    by_cases h : impute = 0 ∨ iter < 25 ∨ iter % 2 = 0
    · rw [runEMbody, if_pos h, if_neg (by omega)]
    · rw [runEMbody, if_neg h, if_pos (by omega)]
  · intro K D ind normal mean covar amp impute b pos fuel
    cases fuel with
    | zero => rfl
    | succ n => rfl
  · intro K D ind normal mean covar amp impute pos fuel
    rfl

/-! ## `M` (Maximization)

`MixtureParameters` is the triple of caller-owned buffers mutated in place by
`M`.  The `for j in xrange(K)` loop of the source mutates one slot of each
buffer per pass; it is embedded as a `List.foldl` over the component indices,
each pass reading the pre-pass state of its own slot (slot `j` is written only
by pass `j`).  A dataset with `impute` trailing synthetic rows is typed as
`Fin (Nr + imp) → Fin D → ℝ`, `Nr` real rows first. -/

structure Params (K D : ℕ) where
  amp : Fin K → ℝ
  mean : Fin K → Fin D → ℝ
  covar : Fin K → Matrix (Fin D) (Fin D) ℝ

/-- Source: `np.outer(v, v.T)`. -/
def outerSelf {D : ℕ} (v : Fin D → ℝ) : Matrix (Fin D) (Fin D) ℝ :=
  Matrix.of fun a b => v a * v b

/-- Source: `qij[:-impute]`: the first `Nr` (real) rows. -/
def firstRows {Nr imp : ℕ} {α : Type} (x : Fin (Nr + imp) → α) : Fin Nr → α :=
  fun i => x (Fin.castAdd imp i)

/-- Source: `qij[-impute:]`: the trailing `imp` (synthetic) rows. -/
def lastRows {Nr imp : ℕ} {α : Type} (x : Fin (Nr + imp) → α) : Fin imp → α :=
  fun i => x (Fin.natAdd Nr i)

/-- Source: `qj = np.exp(logsumLogL(qij))`: per-component total responsibility mass
(the reduction is along the row axis of the `A × K` array passed in). -/
def qjTotal {A K : ℕ} (qij : Fin A → Fin K → ℝ) (j : Fin K) : ℝ :=
  Real.exp (logsumLogL qij j)

/-- One pass of the `for j in xrange(K)` loop of `M`: update `amp[j]`,
accumulate `covar[j]` from the real rows around the *current* `mean[j]`,
divide (plus, when imputing, blend the pre-update covariance back in), and
then overwrite `mean[j]`. -/
def Mstep {Nr imp K D : ℕ} (data : Fin (Nr + imp) → Fin D → ℝ)
    (qij : Fin (Nr + imp) → Fin K → ℝ) (p : Params K D) (j : Fin K) : Params K D :=
  let Q_i : Fin (Nr + imp) → ℝ := fun i => Real.exp (qij i j)
  let ampNew : ℝ := qjTotal qij j / ((Nr + imp : ℕ) : ℝ)
  let covarSum : Matrix (Fin D) (Fin D) ℝ :=
    ∑ i : Fin Nr, Q_i (Fin.castAdd imp i) •
      outerSelf (fun d => data (Fin.castAdd imp i) d - p.mean j d)
  let covarNew : Matrix (Fin D) (Fin D) ℝ :=
    if imp = 0 then (qjTotal qij j)⁻¹ • covarSum
    else (qjTotal (firstRows qij) j)⁻¹ • covarSum
      + (qjTotal (lastRows qij) j / qjTotal qij j) • p.covar j
  let meanNew : Fin D → ℝ := fun d => (∑ i, data i d * Q_i i) / qjTotal qij j
  { amp := Function.update p.amp j ampNew
    mean := Function.update p.mean j meanNew
    covar := Function.update p.covar j covarNew }

/-- Source: `M(data, qij, amp, mean, covar, impute)`. -/
def M {Nr imp K D : ℕ} (data : Fin (Nr + imp) → Fin D → ℝ)
    (qij : Fin (Nr + imp) → Fin K → ℝ) (p : Params K D) : Params K D :=
  (List.finRange K).foldl (Mstep data qij) p

theorem foldl_Mstep_not_mem {Nr imp K D : ℕ} (data : Fin (Nr + imp) → Fin D → ℝ)
    (qij : Fin (Nr + imp) → Fin K → ℝ) (l : List (Fin K)) (j : Fin K)
    (hj : j ∉ l) (p : Params K D) :
    (l.foldl (Mstep data qij) p).amp j = p.amp j ∧
      (l.foldl (Mstep data qij) p).mean j = p.mean j ∧
      (l.foldl (Mstep data qij) p).covar j = p.covar j := by
  induction l generalizing p with
  | nil => exact ⟨rfl, rfl, rfl⟩
  | cons a t ih =>
    have hja : j ≠ a := fun hc => hj (hc ▸ List.mem_cons_self a t)
    have hjt : j ∉ t := fun hc => hj (List.mem_cons_of_mem a hc)
    rw [List.foldl_cons]
    obtain ⟨h1, h2, h3⟩ := ih hjt (Mstep data qij p a)
    refine ⟨?_, ?_, ?_⟩
    · rw [h1]; exact Function.update_noteq hja _ _
    · rw [h2]; exact Function.update_noteq hja _ _
    · rw [h3]; exact Function.update_noteq hja _ _

theorem foldl_Mstep_mem {Nr imp K D : ℕ} (data : Fin (Nr + imp) → Fin D → ℝ)
    (qij : Fin (Nr + imp) → Fin K → ℝ) (l : List (Fin K)) (j : Fin K)
    (hj : j ∈ l) (hnd : l.Nodup) (p : Params K D) :
    (l.foldl (Mstep data qij) p).amp j = qjTotal qij j / ((Nr + imp : ℕ) : ℝ) ∧
      (l.foldl (Mstep data qij) p).mean j
        = (fun d => (∑ i, data i d * Real.exp (qij i j)) / qjTotal qij j) ∧
      (l.foldl (Mstep data qij) p).covar j
        = (if imp = 0 then
            (qjTotal qij j)⁻¹ • ∑ i : Fin Nr, Real.exp (qij (Fin.castAdd imp i) j) •
              outerSelf (fun d => data (Fin.castAdd imp i) d - p.mean j d)
          else
            (qjTotal (firstRows qij) j)⁻¹ •
                (∑ i : Fin Nr, Real.exp (qij (Fin.castAdd imp i) j) •
                  outerSelf (fun d => data (Fin.castAdd imp i) d - p.mean j d))
              + (qjTotal (lastRows qij) j / qjTotal qij j) • p.covar j) := by
  induction l generalizing p with
  | nil => exact absurd hj (List.not_mem_nil j)
  | cons a t ih =>
    rw [List.foldl_cons]
    rcases List.mem_cons.mp hj with rfl | hjt
    · have hjt : j ∉ t := (List.nodup_cons.mp hnd).1
      obtain ⟨h1, h2, h3⟩ := foldl_Mstep_not_mem data qij t j hjt (Mstep data qij p j)
      rw [h1, h2, h3]
      refine ⟨Function.update_same _ _ _, Function.update_same _ _ _, ?_⟩
      exact Function.update_same _ _ _
    · have hja : j ≠ a := by
        rintro rfl
        exact (List.nodup_cons.mp hnd).1 hjt
      obtain ⟨h1, h2, h3⟩ := ih hjt (List.nodup_cons.mp hnd).2 (Mstep data qij p a)
      have hm : (Mstep data qij p a).mean j = p.mean j := Function.update_noteq hja _ _
      have hc : (Mstep data qij p a).covar j = p.covar j := Function.update_noteq hja _ _
      refine ⟨h1, h2, ?_⟩
      rw [h3]
      simp only [hm, hc]

/-- Closed form of the slot-`j` output of `M`: `amp[j]` and `mean[j]` depend
only on `data` and `qij`, while `covar[j]` is centered at the *input*
(pre-update) `mean[j]` and, when imputing, blends in the input `covar[j]`. -/
theorem M_eval {Nr imp K D : ℕ} (data : Fin (Nr + imp) → Fin D → ℝ)
    (qij : Fin (Nr + imp) → Fin K → ℝ) (p : Params K D) (j : Fin K) :
    (M data qij p).amp j = qjTotal qij j / ((Nr + imp : ℕ) : ℝ) ∧
      (M data qij p).mean j
        = (fun d => (∑ i, data i d * Real.exp (qij i j)) / qjTotal qij j) ∧
      (M data qij p).covar j
        = (if imp = 0 then
            (qjTotal qij j)⁻¹ • ∑ i : Fin Nr, Real.exp (qij (Fin.castAdd imp i) j) •
              outerSelf (fun d => data (Fin.castAdd imp i) d - p.mean j d)
          else
            (qjTotal (firstRows qij) j)⁻¹ •
                (∑ i : Fin Nr, Real.exp (qij (Fin.castAdd imp i) j) •
                  outerSelf (fun d => data (Fin.castAdd imp i) d - p.mean j d))
              + (qjTotal (lastRows qij) j / qjTotal qij j) • p.covar j) :=
  foldl_Mstep_mem data qij (List.finRange K) j (List.mem_finRange j)
    (List.nodup_finRange K) p

/-- C3: after any call to `M` whose input log-responsibility matrix is
row-normalized (each row's exponentiated entries sum to 1), the updated
weights sum to 1 — both without (`imp = 0`) and with (`imp > 0`) imputed
rows. -/
theorem C3_amp_sum_one {Nr imp K D : ℕ} (data : Fin (Nr + imp) → Fin D → ℝ)
    (qij : Fin (Nr + imp) → Fin K → ℝ) (p : Params K D)
    (hrows : ∀ i, (∑ j, Real.exp (qij i j)) = 1) (hN : 0 < Nr + imp) :
    (∑ j, (M data qij p).amp j) = 1 := by
  haveI : Nonempty (Fin (Nr + imp)) := ⟨⟨0, hN⟩⟩
  have hq : ∀ j, qjTotal qij j = ∑ i, Real.exp (qij i j) := by
    intro j
    rw [qjTotal, logsumLogL_eq hN, Real.exp_log
      (Finset.sum_pos (fun i _ => Real.exp_pos _) Finset.univ_nonempty)]
  have hNne : ((Nr + imp : ℕ) : ℝ) ≠ 0 := by
    exact_mod_cast Nat.pos_iff_ne_zero.mp hN
  calc (∑ j, (M data qij p).amp j)
      = ∑ j, qjTotal qij j / ((Nr + imp : ℕ) : ℝ) :=
        Finset.sum_congr rfl fun j _ => (M_eval data qij p j).1
    _ = (∑ j, qjTotal qij j) / ((Nr + imp : ℕ) : ℝ) := by rw [Finset.sum_div]
    _ = (∑ i, ∑ j, Real.exp (qij i j)) / ((Nr + imp : ℕ) : ℝ) := by
        rw [show (∑ j, qjTotal qij j) = ∑ j, ∑ i, Real.exp (qij i j) from
          Finset.sum_congr rfl fun j _ => hq j, Finset.sum_comm]
    _ = ((Nr + imp : ℕ) : ℝ) / ((Nr + imp : ℕ) : ℝ) := by
        rw [show (∑ i, ∑ j, Real.exp (qij i j)) = ∑ _i : Fin (Nr + imp), (1 : ℝ) from
          Finset.sum_congr rfl fun i _ => hrows i]
        simp
    _ = 1 := div_self hNne

def witData : Fin 1 → Fin 1 → ℝ := fun _ _ => 0

def witQij : Fin 1 → Fin 1 → ℝ := fun _ _ => 0

def witParams : Params 1 1 := ⟨fun _ => 1, fun _ _ => 0, fun _ => 1⟩

/-- Witness for C3 at a concrete row-normalized input. -/
theorem C3_witness :
    (∑ j, Real.exp (witQij 0 j)) = 1 ∧ 0 < 1 + 0 ∧
      (∑ j, (@M 1 0 1 1 witData witQij witParams).amp j) = 1 := by
  have hrows : ∀ i : Fin (1 + 0), (∑ j, Real.exp (witQij i j)) = 1 := by
    intro i
    have h1 : (∑ j, Real.exp (witQij i j)) = Real.exp (witQij i 0) := Fin.sum_univ_one _
    rw [h1]
    simp [witQij]
  exact ⟨hrows 0, by decide, @C3_amp_sum_one 1 0 1 1 witData witQij witParams hrows (by decide)⟩

/-- C8: if every input `covar[k]` is symmetric then after `M` every updated
`covar[k]` is symmetric, in the plain branch and in the imputation branch that
blends in the previous covariance. -/
theorem C8_covar_symmetric {Nr imp K D : ℕ} (data : Fin (Nr + imp) → Fin D → ℝ)
    (qij : Fin (Nr + imp) → Fin K → ℝ) (p : Params K D)
    (hsym : ∀ k, (p.covar k).IsSymm) (k : Fin K) :
    ((M data qij p).covar k).IsSymm := by
  have hS : (∑ i : Fin Nr, Real.exp (qij (Fin.castAdd imp i) k) •
      outerSelf (fun d => data (Fin.castAdd imp i) d - p.mean k d)).IsSymm := by
    refine Matrix.IsSymm.ext fun a b => ?_
    rw [Matrix.sum_apply, Matrix.sum_apply]
    refine Finset.sum_congr rfl fun i _ => ?_
    simp only [Matrix.smul_apply, outerSelf, Matrix.of_apply, smul_eq_mul]
    ring
  rw [(M_eval data qij p k).2.2]
  by_cases h0 : imp = 0
  · rw [if_pos h0]
    exact hS.smul _
  · rw [if_neg h0]
    exact (hS.smul _).add ((hsym k).smul _)

/-- Witness for C8 at a concrete symmetric input. -/
theorem C8_witness :
    (witParams.covar 0).IsSymm ∧
      ((@M 1 0 1 1 witData witQij witParams).covar 0).IsSymm := by
  have h : ∀ k : Fin 1, (witParams.covar k).IsSymm := fun _ => Matrix.isSymm_one
  exact ⟨h 0, @C8_covar_symmetric 1 0 1 1 witData witQij witParams h 0⟩

/-- Modelled from the spec sentence behind C2 (deliberately *not* from the
source, for comparison): the variant of the `M` pass in which `mean[j]` is
computed before the covariance update, so the covariance's centered
differences use the newly updated mean. -/
def MstepMeanFirst {Nr imp K D : ℕ} (data : Fin (Nr + imp) → Fin D → ℝ)
    (qij : Fin (Nr + imp) → Fin K → ℝ) (p : Params K D) (j : Fin K) : Params K D :=
  let Q_i : Fin (Nr + imp) → ℝ := fun i => Real.exp (qij i j)
  let ampNew : ℝ := qjTotal qij j / ((Nr + imp : ℕ) : ℝ)
  let meanNew : Fin D → ℝ := fun d => (∑ i, data i d * Q_i i) / qjTotal qij j
  let covarSum : Matrix (Fin D) (Fin D) ℝ :=
    ∑ i : Fin Nr, Q_i (Fin.castAdd imp i) •
      outerSelf (fun d => data (Fin.castAdd imp i) d - meanNew d)
  let covarNew : Matrix (Fin D) (Fin D) ℝ :=
    if imp = 0 then (qjTotal qij j)⁻¹ • covarSum
    else (qjTotal (firstRows qij) j)⁻¹ • covarSum
      + (qjTotal (lastRows qij) j / qjTotal qij j) • p.covar j
  { amp := Function.update p.amp j ampNew
    mean := Function.update p.mean j meanNew
    covar := Function.update p.covar j covarNew }

/-- The spec-order `M` (mean before covariance), for comparison with `M`. -/
def MspecMeanFirst {Nr imp K D : ℕ} (data : Fin (Nr + imp) → Fin D → ℝ)
    (qij : Fin (Nr + imp) → Fin K → ℝ) (p : Params K D) : Params K D :=
  (List.finRange K).foldl (MstepMeanFirst data qij) p

def onesData : Fin 1 → Fin 1 → ℝ := fun _ _ => 1

theorem qjTotal_witQij : @qjTotal (1 + 0) 1 witQij 0 = 1 := by
  have h1 : (∑ k : Fin (1 + 0), Real.exp (witQij k 0)) = Real.exp (witQij 0 0) :=
    Fin.sum_univ_one _
  rw [qjTotal, logsumLogL_eq (by decide), h1]
  simp [witQij]

/-- Counterexample for C2: with one data point `x = 1`, unit responsibility
and input mean `0`, the source updates `covar[0]` to `1` (centered at the old
mean `0`), whereas the spec-ordered variant (mean updated first, covariance
centered at the new mean `1`) would give `0`. -/
theorem C2_cex :
    (@M 1 0 1 1 onesData witQij witParams).covar 0 0 0 = 1 ∧
      (@MspecMeanFirst 1 0 1 1 onesData witQij witParams).covar 0 0 0 = 0 := by
  constructor
  · have hM := (@M_eval 1 0 1 1 onesData witQij witParams 0).2.2
    rw [if_pos rfl] at hM
    rw [hM, qjTotal_witQij]
    have h1 : (∑ i : Fin 1, Real.exp (witQij (Fin.castAdd 0 i) 0) •
        outerSelf (fun d => onesData (Fin.castAdd 0 i) d - witParams.mean 0 d))
        = Real.exp (witQij (Fin.castAdd 0 0) 0) •
          outerSelf (fun d => onesData (Fin.castAdd 0 0) d - witParams.mean 0 d) :=
      Fin.sum_univ_one _
    rw [h1]
    simp [witQij, onesData, witParams, outerSelf, Matrix.smul_apply]
  · have hfold : @MspecMeanFirst 1 0 1 1 onesData witQij witParams
        = @MstepMeanFirst 1 0 1 1 onesData witQij witParams 0 := by
      show List.foldl _ witParams (List.finRange 1) = _
      rw [show List.finRange 1 = [(0 : Fin 1)] from rfl, List.foldl_cons, List.foldl_nil]
    rw [hfold]
    show ((@qjTotal (1 + 0) 1 witQij 0)⁻¹ •
        ∑ i : Fin 1, Real.exp (witQij (Fin.castAdd 0 i) 0) •
          outerSelf (fun d => onesData (Fin.castAdd 0 i) d
            - (∑ i2, onesData i2 d * Real.exp (witQij i2 0)) / @qjTotal (1 + 0) 1 witQij 0))
        0 0 = 0
    have hmean : ∀ d : Fin 1,
        (∑ i2 : Fin (1 + 0), onesData i2 d * Real.exp (witQij i2 0)) = 1 := by
      intro d
      have h2 : (∑ i2 : Fin (1 + 0), onesData i2 d * Real.exp (witQij i2 0))
          = onesData 0 d * Real.exp (witQij 0 0) := Fin.sum_univ_one _
      rw [h2]
      simp [witQij, onesData]
    have h1 : (∑ i : Fin 1, Real.exp (witQij (Fin.castAdd 0 i) 0) •
        outerSelf (fun d => onesData (Fin.castAdd 0 i) d
          - (∑ i2, onesData i2 d * Real.exp (witQij i2 0)) / @qjTotal (1 + 0) 1 witQij 0))
        = Real.exp (witQij (Fin.castAdd 0 0) 0) •
          outerSelf (fun d => onesData (Fin.castAdd 0 0) d
            - (∑ i2, onesData i2 d * Real.exp (witQij i2 0)) / @qjTotal (1 + 0) 1 witQij 0) :=
      Fin.sum_univ_one _
    rw [h1]
    simp only [hmean, qjTotal_witQij]
    simp [witQij, onesData, outerSelf, Matrix.smul_apply]

/-- C2 corrected: the mean update is indeed taken over all rows (real plus
imputed), but it happens *after* the covariance update — the covariance's
centered differences use the input (pre-update) mean, and the blended term of
the imputation branch uses the input covariance. -/
theorem C2_amended_mean_after_covar {Nr imp K D : ℕ} (data : Fin (Nr + imp) → Fin D → ℝ)
    (qij : Fin (Nr + imp) → Fin K → ℝ) (p : Params K D) (j : Fin K) :
    (M data qij p).mean j
        = (fun d => (∑ i, data i d * Real.exp (qij i j)) / qjTotal qij j) ∧
      (M data qij p).covar j
        = (if imp = 0 then
            (qjTotal qij j)⁻¹ • ∑ i : Fin Nr, Real.exp (qij (Fin.castAdd imp i) j) •
              outerSelf (fun d => data (Fin.castAdd imp i) d - p.mean j d)
          else
            (qjTotal (firstRows qij) j)⁻¹ •
                (∑ i : Fin Nr, Real.exp (qij (Fin.castAdd imp i) j) •
                  outerSelf (fun d => data (Fin.castAdd imp i) d - p.mean j d))
              + (qjTotal (lastRows qij) j / qjTotal qij j) • p.covar j) :=
  ⟨(M_eval data qij p j).2.1, (M_eval data qij p j).2.2⟩

/-! ## C7: which shift does `logsumLogL` select? -/

theorem tinyF_pos : 0 < tinyF := zpow_pos (by norm_num) _

theorem tinyF_lt_one : tinyF < 1 := by
  have h := (zpow_lt_zpow_iff_right₀ (by norm_num : (1:ℝ) < 2)).mpr
    (show (-1022:ℤ) < 0 by norm_num)
  simpa [tinyF] using h

theorem one_lt_maxF : 1 < maxF := by
  have h52 : (2:ℝ) ^ (-52:ℤ) ≤ 1 := zpow_le_one_of_nonpos₀ (by norm_num) (by norm_num)
  have h1023 : (1:ℝ) < (2:ℝ) ^ (1023:ℤ) := by
    have h := (zpow_lt_zpow_iff_right₀ (by norm_num : (1:ℝ) < 2)).mpr
      (show (0:ℤ) < 1023 by norm_num)
    simpa using h
  have hp : (0:ℝ) < (2:ℝ) ^ (1023:ℤ) := zpow_pos (by norm_num) _
  rw [maxF]
  nlinarith

theorem maxF_mul_tinyF : maxF * tinyF = (2 - (2:ℝ) ^ (-52:ℤ)) * 2 := by
  rw [maxF, tinyF, mul_assoc, ← zpow_add₀ (two_ne_zero : (2:ℝ) ≠ 0)]
  norm_num

theorem log_tinyF_neg : Real.log tinyF < 0 := Real.log_neg tinyF_pos tinyF_lt_one

theorem log_tinyF_lt_log_maxF : Real.log tinyF < Real.log maxF :=
  Real.log_lt_log tinyF_pos (lt_trans tinyF_lt_one one_lt_maxF)

theorem log_maxF_add_log_tinyF_lt_four :
    Real.log maxF + Real.log tinyF < 4 := by
  have hmpos : (0:ℝ) < maxF := lt_trans one_pos one_lt_maxF
  have hmt_pos : 0 < maxF * tinyF := mul_pos hmpos tinyF_pos
  have he : (0:ℝ) < (2:ℝ) ^ (-52:ℤ) := zpow_pos (by norm_num) _
  have hmt_le : maxF * tinyF ≤ 4 := by
    rw [maxF_mul_tinyF]
    nlinarith
  have hlog : Real.log (maxF * tinyF) ≤ maxF * tinyF - 1 :=
    Real.log_le_sub_one_of_pos hmt_pos
  rw [Real.log_mul (ne_of_gt hmpos) (ne_of_gt tinyF_pos)] at hlog
  linarith

/-- A single log-likelihood value `10`, on which the underflow-avoiding shift
is the larger one in magnitude. -/
def llC7 : Fin 1 → Fin 1 → ℝ := fun _ _ => 10

theorem colMin_llC7 : colMin llC7 0 = 10 := by
  rw [colMin, dif_pos Nat.one_pos]
  exact Finset.inf'_const _ _

theorem colMax_llC7 : colMax llC7 0 = 10 := by
  rw [colMax, dif_pos Nat.one_pos]
  exact Finset.sup'_const _ _

/-- Counterexample for C7: at the single log-likelihood `10`, the code's
`np.where(underflow < overflow, underflow, overflow)` selects the
underflow-avoiding shift even though the overflow-avoiding shift is strictly
smaller in magnitude — the selection is by signed comparison, not by
magnitude. -/
theorem C7_cex :
    shiftC llC7 0 = underflowShift llC7 0 ∧
      |overflowShift llC7 0| < |underflowShift llC7 0| := by
  have hu : underflowShift llC7 0 = Real.log tinyF - 10 := by
    rw [underflowShift, colMin_llC7]
  have ho : overflowShift llC7 0 = Real.log maxF - 10 - 0 := by
    rw [overflowShift, colMax_llC7, Nat.cast_one, Real.log_one]
  have hlt : underflowShift llC7 0 < overflowShift llC7 0 := by
    rw [hu, ho]
    have := log_tinyF_lt_log_maxF
    linarith
  refine ⟨by rw [shiftC, if_pos hlt], ?_⟩
  have hun : underflowShift llC7 0 < 0 := by
    rw [hu]
    have := log_tinyF_neg
    linarith
  rw [abs_of_neg hun, abs_lt]
  constructor
  · linarith
  · rw [hu, ho]
    have := log_maxF_add_log_tinyF_lt_four
    linarith

/-- C7 corrected: `logsumLogL` selects per column whichever of the
underflow-avoiding and overflow-avoiding shifts is smaller as a *signed*
value (the elementwise minimum), then shifts, exponentiates, sums, takes the
log and undoes the shift — which, in exact arithmetic, equals the plain
log-sum-exp of the column. -/
theorem C7_amended_signed_min {A B : ℕ} (ll : Fin A → Fin B → ℝ) (n : Fin B)
    (hA : 0 < A) :
    shiftC ll n = min (underflowShift ll n) (overflowShift ll n) ∧
      logsumLogL ll n = Real.log (∑ k, Real.exp (ll k n)) := by
  refine ⟨?_, logsumLogL_eq hA ll n⟩
  rw [shiftC]
  by_cases h : underflowShift ll n < overflowShift ll n
  · rw [if_pos h]
    exact (min_eq_left h.le).symm
  · rw [if_neg h]
    exact (min_eq_right (not_lt.mp h)).symm

/-- A concrete zero log-likelihood column. -/
def llC7w : Fin 1 → Fin 1 → ℝ := fun _ _ => 0

/-- Witness for the amended C7 at a concrete input. -/
theorem C7_witness :
    0 < 1 ∧
      shiftC llC7w 0 = min (underflowShift llC7w 0) (overflowShift llC7w 0) ∧
      logsumLogL llC7w 0 = Real.log (∑ k, Real.exp (llC7w k 0)) :=
  ⟨Nat.one_pos, (C7_amended_signed_min llC7w 0 Nat.one_pos).1,
    (C7_amended_signed_min llC7w 0 Nat.one_pos).2⟩

/-! ## `E` (Expectation) -/

/-- The unnormalized log-densities assembled by the first loop of `E`:
`qij[:,j] = log(amp[j]) - log((2*pi)**D * det(covar[j]))/2 - chi2/2` with
`chi2` the per-row quadratic form
`einsum('...j,j...', dx, inv(covar[j]) @ dx.T)`. -/
def Eunnorm {N D K : ℕ} (data : Fin N → Fin D → ℝ) (amp : Fin K → ℝ)
    (mean : Fin K → Fin D → ℝ) (covar : Fin K → Matrix (Fin D) (Fin D) ℝ) :
    Fin N → Fin K → ℝ := fun i j =>
  Real.log (amp j) - Real.log ((2 * Real.pi) ^ D * (covar j).det) / 2
    - (∑ a, (data i a - mean j a) *
        Matrix.mulVec (covar j)⁻¹ (fun d => data i d - mean j d) a) / 2

/-- One pass of the second loop of `E`: `qij[:,j] -= logsumLogL(qij.T)`.
The subtraction is performed in place, so the normalizer of every later
column is recomputed from the already-modified matrix. -/
def Enorm {N K : ℕ} (q : Fin N → Fin K → ℝ) (j : Fin K) : Fin N → Fin K → ℝ :=
  fun i j2 => if j2 = j then q i j2 - logsumLogL (fun a b => q b a) i else q i j2

/-- Source: `E(data, amp, mean, covar)`. -/
def E {N D K : ℕ} (data : Fin N → Fin D → ℝ) (amp : Fin K → ℝ)
    (mean : Fin K → Fin D → ℝ) (covar : Fin K → Matrix (Fin D) (Fin D) ℝ) :
    Fin N → Fin K → ℝ :=
  (List.finRange K).foldl Enorm (Eunnorm data amp mean covar)

def c1data : Fin 1 → Fin 1 → ℝ := fun _ _ => 0

def c1amp : Fin 2 → ℝ := fun _ => 1 / 2

/-- C1 fails on the code: with two identical components (`K = 2`) on one data
point, the sequential in-place normalization of `E` leaves the row with
real-space sum `1/2 + t/(1/2 + t) ≠ 1` (where `t` is the common
responsibility weight), because the second column's normalizer is recomputed
after the first column was already modified. -/
theorem C1_E_row_not_normalized :
    (∑ j, Real.exp (E c1data c1amp twoMean twoCovar 0 j)) ≠ 1 := by
  have ha : ∀ (i : Fin 1) (j : Fin 2), Eunnorm c1data c1amp twoMean twoCovar i j
      = Real.log (1 / 2) - Real.log (2 * Real.pi) / 2 := by
    intro i j
    simp [Eunnorm, c1data, twoMean, c1amp, twoCovar, Matrix.det_one]
  have hE : E c1data c1amp twoMean twoCovar
      = Enorm (Enorm (Eunnorm c1data c1amp twoMean twoCovar) 0) 1 := by
    show List.foldl Enorm _ (List.finRange 2) = _
    rw [show List.finRange 2 = [(0 : Fin 2), 1] from rfl, List.foldl_cons, List.foldl_cons,
      List.foldl_nil]
  set A := Real.log (1 / 2) - Real.log (2 * Real.pi) / 2 with hAdef
  set q0 := Eunnorm c1data c1amp twoMean twoCovar with hq0def
  have hL0 : logsumLogL (fun a b => q0 b a) 0 = Real.log 2 + A := by
    rw [logsumLogL_eq (by norm_num)]
    have h2 : (∑ k : Fin 2, Real.exp ((fun a b => q0 b a) k 0))
        = Real.exp (q0 0 0) + Real.exp (q0 0 1) := Fin.sum_univ_two _
    rw [h2, ha 0 0, ha 0 1, ← two_mul,
      Real.log_mul two_ne_zero (Real.exp_ne_zero _), Real.log_exp]
  set q1 := Enorm q0 0 with hq1def
  have hq10 : q1 0 0 = -Real.log 2 := by
    show (if (0 : Fin 2) = 0 then q0 0 0 - logsumLogL (fun a b => q0 b a) 0 else q0 0 0)
      = -Real.log 2
    rw [if_pos rfl, ha 0 0, hL0]
    ring
  have hq11 : q1 0 1 = A := by
    show (if (1 : Fin 2) = 0 then q0 0 1 - logsumLogL (fun a b => q0 b a) 0 else q0 0 1)
      = A
    rw [if_neg (by decide), ha 0 1]
  have hL1 : logsumLogL (fun a b => q1 b a) 0 = Real.log (2⁻¹ + Real.exp A) := by
    rw [logsumLogL_eq (by norm_num)]
    have h2 : (∑ k : Fin 2, Real.exp ((fun a b => q1 b a) k 0))
        = Real.exp (q1 0 0) + Real.exp (q1 0 1) := Fin.sum_univ_two _
    rw [h2, hq10, hq11, Real.exp_neg, Real.exp_log two_pos]
  have hpos : (0 : ℝ) < 2⁻¹ + Real.exp A := by positivity
  have hsum : (∑ j, Real.exp (E c1data c1amp twoMean twoCovar 0 j))
      = 2⁻¹ + Real.exp A / (2⁻¹ + Real.exp A) := by
    rw [hE]
    have h2 : (∑ j : Fin 2, Real.exp (Enorm q1 1 0 j))
        = Real.exp (Enorm q1 1 0 0) + Real.exp (Enorm q1 1 0 1) := Fin.sum_univ_two _
    rw [h2]
    have h20 : Enorm q1 1 0 0 = -Real.log 2 := by
      show (if (0 : Fin 2) = 1 then q1 0 0 - logsumLogL (fun a b => q1 b a) 0 else q1 0 0)
        = -Real.log 2
      rw [if_neg (by decide), hq10]
    have h21 : Enorm q1 1 0 1 = A - Real.log (2⁻¹ + Real.exp A) := by
      show (if (1 : Fin 2) = 1 then q1 0 1 - logsumLogL (fun a b => q1 b a) 0 else q1 0 1)
        = A - Real.log (2⁻¹ + Real.exp A)
      rw [if_pos rfl, hq11, hL1]
    rw [h20, h21, Real.exp_neg, Real.exp_log two_pos, Real.exp_sub,
      Real.exp_log hpos]
  rw [hsum]
  have ht : 0 < Real.exp A := Real.exp_pos _
  have hne : Real.exp A ≠ 2⁻¹ := by
    intro he
    have hA : A = Real.log 2⁻¹ := by rw [← he, Real.log_exp]
    rw [Real.log_inv] at hA
    have hhalf : Real.log (1 / 2 : ℝ) = -Real.log 2 := by rw [one_div, Real.log_inv]
    rw [hAdef, hhalf] at hA
    have hlog0 : Real.log (2 * Real.pi) = 0 := by linarith
    rcases Real.log_eq_zero.mp hlog0 with h | h | h <;> nlinarith [Real.pi_gt_three]
  intro h1
  apply hne
  have hne0 : (2⁻¹ + Real.exp A) ≠ 0 := ne_of_gt hpos
  field_simp at h1
  nlinarith

end

end Iemgmm
